import Mathlib

/-!
Verification of the bluebook rich-text editor core.

Shallow embedding of the Rust sources:
* `CursorRange` — `bluebook_core/src/selection.rs` and
  `bluebook_core/src/buffer/peritext_buffer/cursor_impl.rs` (identical definitions).
* Grapheme segmentation — the single-step boundary queries live in the external
  `unicode_segmentation` crate; they are modelled from the spec (§4.2) as an abstract
  boundary set.  The n-step compositions `nth_next_grapheme_boundary` /
  `nth_prev_grapheme_boundary` are translated from `cursor_impl.rs`.
* The transaction state machine — `bluebook_core/src/editor.rs`,
  `TextEditorContext::consume_transaction`.
* The word-boundary classifier — `bluebook_core/src/word.rs`, `classify_boundary`.
* `RopeBuffer::annotate` — `bluebook_core/src/buffer_impl/rope/buffer.rs`.
* The augmented AVL interval tree — `bluebook_core/src/span/augmented_avl_tree.rs`.

Buffers are byte strings, modelled as lists of bytes; all offsets are byte offsets.
-/

/-- Byte strings (buffer contents, inserted text) as lists of byte values. -/
abbrev ByteBuf := List Nat

/-- `CursorRange` (`selection.rs` / `cursor_impl.rs`): an anchor/head pair of byte
offsets with no ordering constraint between the two. -/
structure CursorRange where
  anchor : Nat
  head : Nat
deriving DecidableEq, Repr

namespace CursorRange

/-- `CursorRange::from`: start of the range (`min(anchor, head)`); `from` is a Lean
keyword, hence the name `fromOfs`. -/
def fromOfs (r : CursorRange) : Nat := min r.anchor r.head

/-- `CursorRange::to`: end of the range (`max(anchor, head)`). -/
def toOfs (r : CursorRange) : Nat := max r.anchor r.head

/-- `CursorRange::is_empty`: head and anchor coincide. -/
def isEmpty (r : CursorRange) : Bool := r.anchor == r.head

/-- `CursorRange::point` / the result of `set_point`: a collapsed range. -/
def point (o : Nat) : CursorRange := ⟨o, o⟩

/-- `CursorRange::overlaps` (`selection.rs` lines 115-122):
`self.from() == other.from() || (self.to() > other.from() && other.to() > self.from())`. -/
def overlaps (a b : CursorRange) : Bool :=
  a.fromOfs == b.fromOfs || (decide (a.toOfs > b.fromOfs) && decide (b.toOfs > a.fromOfs))

/-- `CursorRange::contains_range`. -/
def containsRange (a b : CursorRange) : Bool :=
  decide (a.fromOfs ≤ b.fromOfs) && decide (a.toOfs ≥ b.toOfs)

end CursorRange

/-! ### Grapheme segmentation model

Modelled from the spec (§4.2): the `unicode_segmentation` crate (not part of this
repository) supplies, for a byte slice, the set of grapheme-cluster boundaries;
offsets `0` and `len` are always boundaries, `next_boundary`/`prev_boundary` return
the adjacent boundary or `None` at the text edges.  With the whole string available
as context the incomplete-context errors of the crate cannot occur, so the
single-step queries are `Option`-valued here. -/

/-- Linear upward search: first `j` in `lo, lo+1, …, lo+fuel-1` with `p j = true`. -/
def findFrom (p : Nat → Bool) (lo : Nat) : Nat → Option Nat
  | 0 => none
  | fuel+1 => if p lo then some lo else findFrom p (lo+1) fuel

/-- Linear downward search: greatest `j < i` with `p j = true`. -/
def findDown (p : Nat → Bool) : Nat → Option Nat
  | 0 => none
  | k+1 => if p k then some k else findDown p k

/-- Modelled from the spec (§4.2): a grapheme segmentation of a buffer of byte
length `len` is the (finite, decidable) set of grapheme-cluster boundary offsets;
`0` and `len` are always boundaries. -/
structure Seg where
  len : Nat
  isB : Nat → Bool
  zero_mem : isB 0 = true
  len_mem : isB len = true
  mem_le : ∀ j, isB j = true → j ≤ len

/-- Modelled from the spec (§4.2): `GraphemeCursor::next_boundary` — the least
boundary strictly after `i`, or `none` when `i` is at (or past) the end. -/
def Seg.nextB (g : Seg) (i : Nat) : Option Nat :=
  if i < g.len then findFrom g.isB (i+1) (g.len - i) else none

/-- Modelled from the spec (§4.2): `GraphemeCursor::prev_boundary` — the greatest
boundary strictly before `i`, or `none` when `i = 0`. -/
def Seg.prevB (g : Seg) (i : Nat) : Option Nat :=
  findDown g.isB i

/-- `PeritextCursor::nth_next_grapheme_boundary` (`cursor_impl.rs` lines 134-160):
iterate the single-step query `n` times, short-circuiting to `none` the moment a
step fails; with `n = 0` the cursor offset itself is returned. -/
def Seg.nthNextB (g : Seg) (i : Nat) : Nat → Option Nat
  | 0 => some i
  | n+1 =>
    match g.nextB i with
    | some j => g.nthNextB j n
    | none => none

/-- `PeritextCursor::nth_prev_grapheme_boundary` (`cursor_impl.rs` lines 161-186). -/
def Seg.nthPrevB (g : Seg) (i : Nat) : Nat → Option Nat
  | 0 => some i
  | n+1 =>
    match g.prevB i with
    | some j => g.nthPrevB j n
    | none => none

/-! ### Buffer primitives and the transaction state machine (`editor.rs`) -/

/-- Error taxonomy of the transaction machine (spec §7): boundary/range errors,
and the text-edge failure of an n-step cursor move. -/
inductive EditorErr where
  | rangeErr
  | boundaryErr
  | edgeErr
deriving DecidableEq, Repr

/-- `RopeBuffer::write` (`buffer.rs` lines 188-196): insert `s` at `offset` and
return `offset + s.len()`.  An offset beyond the buffer is a boundary error
(spec §7(a): "a query range exceeds buffer length"). -/
def bufWrite (buf : ByteBuf) (offset : Nat) (s : ByteBuf) : Except EditorErr (ByteBuf × Nat) :=
  if offset ≤ buf.length then
    .ok (buf.take offset ++ s ++ buf.drop offset, offset + s.length)
  else .error .rangeErr

/-- Modelled from the spec (§4.3, §7): `drain(range)` removes the bytes in
`[a, b)`; a reversed range (`start > end`) or an end past the buffer is a
boundary error, surfaced as a typed error.  (The repository declares `drain`
on its buffer trait but the only implementation under `src/` is `todo!()`.) -/
def bufDrain (buf : ByteBuf) (a b : Nat) : Except EditorErr ByteBuf :=
  if a ≤ b ∧ b ≤ buf.length then .ok (buf.take a ++ buf.drop b) else .error .rangeErr

/-- The `Transaction` enum consumed by `TextEditorContext::consume_transaction`
(the catch-all `otherNoOp` stands for the remaining variants, which fall into the
`_ => Ok(false)` arm). -/
inductive Transaction where
  | insertAtCursorHead (value : ByteBuf)
  | paste (clipboard : ByteBuf)
  | deleteSelection
  | deleteBackward
  | moveCursorLeft (graphemeCount : Nat)
  | moveCursorRight (graphemeCount : Nat)
  | moveCursorHeadTo (offset : Nat)
  | otherNoOp

/-- The document state of `TextEditorContext`: buffer content plus cursor range. -/
structure EditorCtx where
  buffer : ByteBuf
  cursorRange : CursorRange
deriving DecidableEq, Repr

/-- `TextEditorContext::consume_transaction` (`editor.rs` lines 60-133), with the
grapheme segmentation `g` of the current buffer supplied explicitly.  Cursor
construction validates that the head sits on a grapheme boundary
(`Peritext::cursor` returns `None` otherwise); a failed single step of an n-step
move surfaces as `edgeErr`, leaving the state untouched (modelled from the spec:
"if a step is impossible (text edge), transaction reports failure and cursor is
left unmoved" — the `None` arm of `editor.rs` does not type-check as written).
On success the new state is returned alongside the `bool` outcome. -/
def consumeTransaction (g : Seg) (ctx : EditorCtx) (t : Transaction) :
    Except EditorErr (Bool × EditorCtx) :=
  match t with
  | .deleteSelection =>
    if ctx.cursorRange.isEmpty then .ok (false, ctx)
    else
      match bufDrain ctx.buffer ctx.cursorRange.anchor ctx.cursorRange.head with
      | .ok buf => .ok (true, ⟨buf, CursorRange.point ctx.cursorRange.anchor⟩)
      | .error e => .error e
  | .deleteBackward =>
    if ctx.cursorRange.isEmpty then
      if g.isB ctx.cursorRange.head then
        match g.nthPrevB ctx.cursorRange.head 1 with
        | some b =>
          match bufDrain ctx.buffer b ctx.cursorRange.head with
          | .ok buf => .ok (true, ⟨buf, CursorRange.point b⟩)
          | .error e => .error e
        | none => .error .edgeErr
      else .error .boundaryErr
    else .ok (true, ctx)
  | .insertAtCursorHead s | .paste s =>
    match bufWrite ctx.buffer ctx.cursorRange.head s with
    | .ok (buf, idx) => .ok (true, ⟨buf, CursorRange.point idx⟩)
    | .error e => .error e
  | .moveCursorLeft n =>
    if g.isB ctx.cursorRange.head then
      match g.nthPrevB ctx.cursorRange.head n with
      | some o => .ok (true, ⟨ctx.buffer, CursorRange.point o⟩)
      | none => .error .edgeErr
    else .error .boundaryErr
  | .moveCursorRight n =>
    if g.isB ctx.cursorRange.head then
      match g.nthNextB ctx.cursorRange.head n with
      | some o => .ok (true, ⟨ctx.buffer, CursorRange.point o⟩)
      | none => .error .edgeErr
    else .error .boundaryErr
  | .moveCursorHeadTo o =>
    if g.isB o then .ok (true, ⟨ctx.buffer, ⟨ctx.cursorRange.anchor, o⟩⟩)
    else .error .boundaryErr
  | .otherNoOp => .ok (false, ctx)

/-! ### Word-boundary classifier (`word.rs`) -/

/-- `CharClassification` (`word.rs` lines 4-16). -/
inductive CharClassification where
  | Cr
  | Lf
  | Space
  | Punctuation
  | Other
deriving DecidableEq, Repr

/-- `WordBoundary` (`word.rs` lines 19-29). -/
inductive WordBoundary where
  | Interior
  | Start
  | End
  | Both
deriving DecidableEq, Repr

/-- `classify_boundary` (`word.rs` lines 46-64); the match arms are kept in the
source order, which is significant (earlier arms shadow later ones). -/
def classifyBoundary (prev next : CharClassification) : WordBoundary :=
  match prev, next with
  | .Lf, .Lf => .Start
  | .Lf, .Space => .Interior
  | .Cr, .Lf => .Interior
  | .Space, .Lf => .Interior
  | .Space, .Cr => .Interior
  | .Space, .Space => .Interior
  | _, .Space => .End
  | .Space, _ => .Start
  | .Lf, _ => .Start
  | _, .Cr => .End
  | _, .Lf => .End
  | .Punctuation, .Other => .Both
  | .Other, .Punctuation => .Both
  | _, _ => .Interior

/-- The boundary table the source actually computes, written rule-wise (one row
per previous-class): used to state the amended form of the classifier claim. -/
def classifyBoundarySpec (prev next : CharClassification) : WordBoundary :=
  if prev = .Lf then
    if next = .Space then .Interior else .Start
  else if prev = .Space then
    if next = .Lf ∨ next = .Cr ∨ next = .Space then .Interior else .Start
  else if prev = .Cr then
    if next = .Lf then .Interior
    else if next = .Cr ∨ next = .Space then .End
    else .Interior
  else
    if next = .Space ∨ next = .Cr ∨ next = .Lf then .End
    else if (prev = .Punctuation ∧ next = .Other) ∨ (prev = .Other ∧ next = .Punctuation) then .Both
    else .Interior

/-! ### `RopeBuffer::annotate` (`buffer_impl/rope/buffer.rs`) -/

/-- `RopeBuffer` state (`buffer.rs` lines 31-34): the text rope (the `tombstones`
rope is never read) and no span storage whatsoever — the struct has no field
that could hold spans. -/
structure RopeBuffer where
  text : ByteBuf
deriving DecidableEq, Repr

/-- `RopeBuffer::annotate` (`buffer.rs` lines 218-222): builds a local
`SpansBuilder`, adds the span to it, `build()`s it into the local `_spans` —
and drops it.  No field of `self` is modified, so the function returns the
state unchanged. -/
def ropeAnnotate (b : RopeBuffer) (_range : Nat × Nat) (_data : Nat) : RopeBuffer :=
  b

/-! ### Properties of the boundary searches -/

theorem findFrom_eq_some {p : Nat → Bool} {lo fuel a : Nat} (h : findFrom p lo fuel = some a) :
    p a = true ∧ lo ≤ a ∧ a < lo + fuel ∧ ∀ b, lo ≤ b → b < a → p b = false := by
  induction fuel generalizing lo with
  | zero => simp [findFrom] at h
  | succ n ih =>
    simp only [findFrom] at h
    by_cases hp : p lo = true
    · rw [if_pos hp] at h
      cases h
      exact ⟨hp, Nat.le_refl _, by omega, fun b hb hb' => by omega⟩
    · rw [if_neg hp] at h
      obtain ⟨h1, h2, h3, h4⟩ := ih h
      refine ⟨h1, by omega, by omega, ?_⟩
      intro b hb hb'
      rcases Nat.eq_or_lt_of_le hb with rfl | hlt
      · simpa using hp
      · exact h4 b hlt hb'

theorem findFrom_some_of {p : Nat → Bool} {lo fuel a : Nat} (hp : p a = true) (h1 : lo ≤ a)
    (h2 : a < lo + fuel) (h3 : ∀ b, lo ≤ b → b < a → p b = false) :
    findFrom p lo fuel = some a := by
  induction fuel generalizing lo with
  | zero => omega
  | succ n ih =>
    simp only [findFrom]
    rcases Nat.eq_or_lt_of_le h1 with rfl | hlt
    · rw [if_pos hp]
    · rw [if_neg (by simp [h3 lo (Nat.le_refl _) hlt])]
      exact ih (by omega) (by omega) (fun b hb hb' => h3 b (by omega) hb')

theorem findDown_eq_some {p : Nat → Bool} {i a : Nat} (h : findDown p i = some a) :
    p a = true ∧ a < i ∧ ∀ b, a < b → b < i → p b = false := by
  induction i with
  | zero => simp [findDown] at h
  | succ k ih =>
    simp only [findDown] at h
    by_cases hp : p k = true
    · rw [if_pos hp] at h
      cases h
      exact ⟨hp, by omega, fun b hb hb' => by omega⟩
    · rw [if_neg hp] at h
      obtain ⟨h1, h2, h3⟩ := ih h
      refine ⟨h1, by omega, ?_⟩
      intro b hb hb'
      rcases Nat.lt_succ_iff_lt_or_eq.mp hb' with hc | rfl
      · exact h3 b hb hc
      · simpa using hp

/-- A backward single step lands strictly before the start offset, on a boundary,
and skips no boundary in between. -/
theorem Seg.prevB_eq_some {g : Seg} {i j : Nat} (h : g.prevB i = some j) :
    g.isB j = true ∧ j < i ∧ ∀ b, j < b → b < i → g.isB b = false :=
  findDown_eq_some h

/-- Stepping forward from the result of a backward step returns to the start,
provided the start offset is a boundary within the text. -/
theorem Seg.nextB_of_prevB {g : Seg} {i j : Nat} (hi : g.isB i = true) (hlen : i ≤ g.len)
    (h : g.prevB i = some j) : g.nextB j = some i := by
  obtain ⟨hpj, hji, hmax⟩ := Seg.prevB_eq_some h
  have hjlen : j < g.len := Nat.lt_of_lt_of_le hji hlen
  unfold Seg.nextB
  rw [if_pos hjlen]
  exact findFrom_some_of hi (by omega) (by omega) (fun b hb hb' => hmax b (by omega) hb')

/-- The n-step forward walk factors as an (n-1)-step walk followed by one step. -/
theorem Seg.nthNextB_succ (g : Seg) (i n : Nat) :
    g.nthNextB i (n+1) = (g.nthNextB i n).bind (fun j => g.nextB j) := by
  induction n generalizing i with
  | zero => cases h : g.nextB i <;> simp [Seg.nthNextB, h]
  | succ n ih =>
    simp only [Seg.nthNextB]
    cases h : g.nextB i with
    | none => rfl
    | some j => exact ih j

/-- Walking n grapheme steps backward from a boundary and then n steps forward
returns to the start. -/
theorem Seg.nthPrevB_roundtrip {g : Seg} {i j n : Nat} (hi : g.isB i = true)
    (hlen : i ≤ g.len) (h : g.nthPrevB i n = some j) : g.nthNextB j n = some i := by
  induction n generalizing i with
  | zero =>
    simp only [Seg.nthPrevB, Option.some.injEq] at h
    subst h
    rfl
  | succ n ih =>
    simp only [Seg.nthPrevB] at h
    cases hp : g.prevB i with
    | none => rw [hp] at h; cases h
    | some j0 =>
      rw [hp] at h
      obtain ⟨hbj0, hj0i, _⟩ := Seg.prevB_eq_some hp
      have hnext := ih hbj0 (Nat.le_of_lt (Nat.lt_of_lt_of_le hj0i hlen)) h
      rw [Seg.nthNextB_succ, hnext]
      simpa using Seg.nextB_of_prevB hi hlen hp

/-! ### Concrete segmentations used in the scenario witnesses -/

/-- Segmentation of an all-ASCII buffer of length `n`: every offset is a boundary. -/
def segUniform (n : Nat) : Seg :=
  ⟨n, fun j => decide (j ≤ n), by simp, by simp, fun j h => by simpa using h⟩

/-- Segmentation of the 6-byte buffer `"a😀b"` (bytes `61 F0 9F 98 80 62`):
grapheme boundaries at offsets 0, 1, 5 and 6. -/
def segEmoji : Seg :=
  ⟨6, fun j => j == 0 || j == 1 || j == 5 || j == 6, by decide, by decide, by
    intro j h
    simp only [Bool.or_eq_true, beq_iff_eq] at h
    rcases h with ((h | h) | h) | h <;> omega⟩

/-! ### Claims about the transaction state machine -/

/-- Claim C1: with the cursor collapsed to a point `p` on a grapheme boundary,
`InsertAtCursorHead{s}` (and `Paste{s}`) inserts `s` at offset `p`, keeps every
other byte (prefix and suffix unchanged), and collapses the cursor to a point at
`p + len(s)`. -/
theorem insert_at_cursor_head_spec (g : Seg) (ctx : EditorCtx) (p : Nat) (s : ByteBuf)
    (hpt : ctx.cursorRange = CursorRange.point p)
    (hb : g.isB p = true) (hlen : g.len = ctx.buffer.length) :
    consumeTransaction g ctx (.insertAtCursorHead s) =
        .ok (true, ⟨ctx.buffer.take p ++ s ++ ctx.buffer.drop p,
                    CursorRange.point (p + s.length)⟩)
  ∧ consumeTransaction g ctx (.paste s) =
        .ok (true, ⟨ctx.buffer.take p ++ s ++ ctx.buffer.drop p,
                    CursorRange.point (p + s.length)⟩) := by
  have hple : p ≤ ctx.buffer.length := hlen ▸ g.mem_le p hb
  have hhead : ctx.cursorRange.head = p := by rw [hpt]; rfl
  constructor <;> simp [consumeTransaction, hhead, bufWrite, if_pos hple]

/-- Witness for C1, the spec's basic-insert scenario: buffer `"Hello world"`,
cursor point at 5, insert `" there"` → buffer `"Hello there world"`, point at 11. -/
theorem insert_at_cursor_head_witness :
    consumeTransaction (segUniform 11)
        ⟨[72,101,108,108,111,32,119,111,114,108,100], ⟨5,5⟩⟩
        (.insertAtCursorHead [32,116,104,101,114,101]) =
      .ok (true, ⟨[72,101,108,108,111,32,116,104,101,114,101,32,119,111,114,108,100],
                  ⟨11,11⟩⟩) := by
  have h := (insert_at_cursor_head_spec (segUniform 11)
      ⟨[72,101,108,108,111,32,119,111,114,108,100], ⟨5,5⟩⟩ 5 [32,116,104,101,114,101]
      rfl (by decide) rfl).1
  exact h

/-- Claim C2 as amended: `DeleteSelection` on an empty range is `Ok(false)` and
changes nothing; on a forward selection (`anchor < head`) it deletes `[anchor, head)`
and collapses the cursor to a point at `anchor`; on a backward selection
(`head < anchor`) the code passes the unnormalized `anchor..head` to `drain`,
which rejects the reversed range, so the transaction fails instead of deleting
`[min, max)`. -/
theorem delete_selection_spec (g : Seg) (ctx : EditorCtx) :
    (ctx.cursorRange.isEmpty = true →
      consumeTransaction g ctx .deleteSelection = .ok (false, ctx))
  ∧ (ctx.cursorRange.anchor < ctx.cursorRange.head →
     ctx.cursorRange.head ≤ ctx.buffer.length →
      consumeTransaction g ctx .deleteSelection =
        .ok (true, ⟨ctx.buffer.take ctx.cursorRange.anchor ++ ctx.buffer.drop ctx.cursorRange.head,
                    CursorRange.point ctx.cursorRange.anchor⟩))
  ∧ (ctx.cursorRange.head < ctx.cursorRange.anchor →
      consumeTransaction g ctx .deleteSelection = .error .rangeErr) := by
  refine ⟨fun h => by simp [consumeTransaction, h], fun h1 h2 => ?_, fun h1 => ?_⟩
  · have hne : ctx.cursorRange.isEmpty = false := by
      simp only [CursorRange.isEmpty, beq_eq_false_iff_ne, ne_eq]
      omega
    simp [consumeTransaction, hne, bufDrain, if_pos (⟨Nat.le_of_lt h1, h2⟩ : _ ∧ _)]
  · have hne : ctx.cursorRange.isEmpty = false := by
      simp only [CursorRange.isEmpty, beq_eq_false_iff_ne, ne_eq]
      omega
    have hd : bufDrain ctx.buffer ctx.cursorRange.anchor ctx.cursorRange.head =
        .error .rangeErr := by
      unfold bufDrain
      rw [if_neg (by omega)]
    simp [consumeTransaction, hne, hd]

/-- Counterexample to claim C2 as stated: on buffer `"abc"` with the backward
selection anchor 2 / head 1, the claim demands that `[1, 2)` is deleted (buffer
`"ac"`) with the cursor collapsing to a point at 1; the code instead drains the
reversed range `2..1` and fails. -/
theorem delete_selection_backward_counterexample :
    consumeTransaction (segUniform 3) ⟨[97,98,99], ⟨2,1⟩⟩ .deleteSelection ≠
      .ok (true, ⟨[97,99], ⟨1,1⟩⟩) := by
  intro h
  have h0 : consumeTransaction (segUniform 3) ⟨[97,98,99], ⟨2,1⟩⟩ .deleteSelection =
      .error .rangeErr := rfl
  rw [h0] at h
  exact Except.noConfusion h

/-- Witness for the amended C2: the three behaviours at concrete states — empty
range no-op, forward deletion of `[1, 2)` from `"abc"`, failing backward range. -/
theorem delete_selection_witness :
    consumeTransaction (segUniform 3) ⟨[97,98,99], ⟨1,1⟩⟩ .deleteSelection =
        .ok (false, ⟨[97,98,99], ⟨1,1⟩⟩)
  ∧ consumeTransaction (segUniform 3) ⟨[97,98,99], ⟨1,2⟩⟩ .deleteSelection =
        .ok (true, ⟨[97,99], ⟨1,1⟩⟩)
  ∧ consumeTransaction (segUniform 3) ⟨[97,98,99], ⟨2,1⟩⟩ .deleteSelection =
        .error .rangeErr :=
  ⟨(delete_selection_spec (segUniform 3) ⟨[97,98,99], ⟨1,1⟩⟩).1 (by decide),
   (delete_selection_spec (segUniform 3) ⟨[97,98,99], ⟨1,2⟩⟩).2.1 (by decide) (by decide),
   (delete_selection_spec (segUniform 3) ⟨[97,98,99], ⟨2,1⟩⟩).2.2 (by decide)⟩

/-- Claim C3: with an empty cursor at a grapheme boundary `p > 0`, `DeleteBackward`
computes the previous grapheme boundary `b`, deletes exactly the bytes `[b, p)`,
and collapses the cursor to a point at `b`. -/
theorem delete_backward_spec (g : Seg) (ctx : EditorCtx) (p b : Nat)
    (hpt : ctx.cursorRange = CursorRange.point p) (_hpos : 0 < p)
    (hb : g.isB p = true) (hlen : g.len = ctx.buffer.length)
    (hprev : g.nthPrevB p 1 = some b) :
    consumeTransaction g ctx .deleteBackward =
      .ok (true, ⟨ctx.buffer.take b ++ ctx.buffer.drop p, CursorRange.point b⟩) := by
  have hp1 : g.prevB p = some b := by
    cases hp0 : g.prevB p with
    | none => simp [Seg.nthPrevB, hp0] at hprev
    | some j =>
      simp only [Seg.nthPrevB, hp0, Option.some.injEq] at hprev
      rw [hprev]
  obtain ⟨hbb, hblt, _⟩ := Seg.prevB_eq_some hp1
  have hple : p ≤ ctx.buffer.length := hlen ▸ g.mem_le p hb
  have hhead : ctx.cursorRange.head = p := by rw [hpt]; rfl
  have hempty : ctx.cursorRange.isEmpty = true := by
    rw [hpt]; simp [CursorRange.isEmpty, CursorRange.point]
  simp [consumeTransaction, hempty, hhead, hb, hprev, bufDrain,
    if_pos (⟨Nat.le_of_lt hblt, hple⟩ : _ ∧ _)]

/-- Witness for C3, the spec's backward-delete scenario: buffer `"a😀b"`
(bytes `61 F0 9F 98 80 62`), cursor point at offset 5, `DeleteBackward` removes the
4-byte emoji grapheme `[1, 5)`, leaving `"ab"` with the cursor point at 1. -/
theorem delete_backward_witness :
    consumeTransaction segEmoji ⟨[97,240,159,152,128,98], ⟨5,5⟩⟩ .deleteBackward =
      .ok (true, ⟨[97,98], ⟨1,1⟩⟩) := by
  have h := delete_backward_spec segEmoji ⟨[97,240,159,152,128,98], ⟨5,5⟩⟩ 5 1
    rfl (by decide) (by decide) rfl rfl
  exact h

/-- Claim C4: `MoveCursorLeft{n}` / `MoveCursorRight{n}` with the head on a grapheme
boundary move the cursor point to the offset reached by exactly `n` single grapheme
steps; if any of the `n` steps hits the text edge, the transaction fails (it does
not return `Ok(true)`) and no new state is produced, leaving the cursor range at
its previous value. -/
theorem move_cursor_spec (g : Seg) (ctx : EditorCtx) (n : Nat)
    (hb : g.isB ctx.cursorRange.head = true) :
    (∀ o, g.nthPrevB ctx.cursorRange.head n = some o →
      consumeTransaction g ctx (.moveCursorLeft n) =
        .ok (true, ⟨ctx.buffer, CursorRange.point o⟩))
  ∧ (g.nthPrevB ctx.cursorRange.head n = none →
      consumeTransaction g ctx (.moveCursorLeft n) = .error .edgeErr)
  ∧ (∀ o, g.nthNextB ctx.cursorRange.head n = some o →
      consumeTransaction g ctx (.moveCursorRight n) =
        .ok (true, ⟨ctx.buffer, CursorRange.point o⟩))
  ∧ (g.nthNextB ctx.cursorRange.head n = none →
      consumeTransaction g ctx (.moveCursorRight n) = .error .edgeErr) :=
  ⟨fun o ho => by simp [consumeTransaction, hb, ho],
   fun ho => by simp [consumeTransaction, hb, ho],
   fun o ho => by simp [consumeTransaction, hb, ho],
   fun ho => by simp [consumeTransaction, hb, ho]⟩

/-- Witness for C4 on the two-byte ASCII buffer `"ab"` with the cursor at offset 1:
one step left/right succeeds (points 0 and 2), two steps run off the edge and fail. -/
theorem move_cursor_witness :
    consumeTransaction (segUniform 2) ⟨[97,98], ⟨1,1⟩⟩ (.moveCursorLeft 1) =
        .ok (true, ⟨[97,98], ⟨0,0⟩⟩)
  ∧ consumeTransaction (segUniform 2) ⟨[97,98], ⟨1,1⟩⟩ (.moveCursorLeft 2) =
        .error .edgeErr
  ∧ consumeTransaction (segUniform 2) ⟨[97,98], ⟨1,1⟩⟩ (.moveCursorRight 1) =
        .ok (true, ⟨[97,98], ⟨2,2⟩⟩)
  ∧ consumeTransaction (segUniform 2) ⟨[97,98], ⟨1,1⟩⟩ (.moveCursorRight 2) =
        .error .edgeErr :=
  ⟨(move_cursor_spec (segUniform 2) ⟨[97,98], ⟨1,1⟩⟩ 1 (by decide)).1 0 rfl,
   (move_cursor_spec (segUniform 2) ⟨[97,98], ⟨1,1⟩⟩ 2 (by decide)).2.1 rfl,
   (move_cursor_spec (segUniform 2) ⟨[97,98], ⟨1,1⟩⟩ 1 (by decide)).2.2.1 2 rfl,
   (move_cursor_spec (segUniform 2) ⟨[97,98], ⟨1,1⟩⟩ 2 (by decide)).2.2.2 rfl⟩

/-- Claim C5 is refuted by the code: `RopeBuffer::annotate` builds its span into a
local that is immediately dropped and modifies no field of `self`, so no span is
ever stored or observable afterwards — for every buffer state, range and
attribute value, the state after `annotate` is identical to the state before. -/
theorem rope_annotate_is_discarded (b : RopeBuffer) (r : Nat × Nat) (d : Nat) :
    ropeAnnotate b r d = b := rfl

/-- Claim C8: composing `nth_next_grapheme_boundary` after `nth_prev_grapheme_boundary`
from a grapheme boundary `i` within the text returns `i` whenever both walks succeed. -/
theorem grapheme_roundtrip (g : Seg) (i n j k : Nat)
    (hb : g.isB i = true) (hle : i ≤ g.len)
    (hprev : g.nthPrevB i n = some j) (hnext : g.nthNextB j n = some k) : k = i := by
  have h := Seg.nthPrevB_roundtrip hb hle hprev
  rw [hnext] at h
  exact Option.some.inj h

/-- Witness for C8 on the emoji buffer `"a😀b"`: from boundary 5, two steps back
reach 0, two steps forward return to 5. -/
theorem grapheme_roundtrip_witness :
    segEmoji.isB 5 = true ∧ 5 ≤ segEmoji.len ∧
      segEmoji.nthPrevB 5 2 = some 0 ∧ segEmoji.nthNextB 0 2 = some 5 ∧ (5 : Nat) = 5 :=
  ⟨by decide, by decide, rfl, rfl, grapheme_roundtrip segEmoji 5 2 0 5 (by decide) (by decide) rfl rfl⟩

/-! ### Claims about `CursorRange::overlaps` and the word-boundary classifier -/

/-- Claim C7: `overlaps` holds exactly when the ranges share a start, or each
range's end strictly exceeds the other's start; it is symmetric; adjacent
non-empty ranges sharing only an edge do not overlap; and a zero-width range
overlaps any range whose start it shares. -/
theorem overlaps_spec :
    (∀ a b : CursorRange, a.overlaps b = true ↔
        (a.fromOfs = b.fromOfs ∨ (b.fromOfs < a.toOfs ∧ a.fromOfs < b.toOfs)))
  ∧ (∀ a b : CursorRange, a.overlaps b = b.overlaps a)
  ∧ (∀ a b : CursorRange, a.fromOfs < a.toOfs → b.fromOfs < b.toOfs →
      a.toOfs = b.fromOfs → a.overlaps b = false)
  ∧ (∀ (p : Nat) (b : CursorRange), b.fromOfs = p →
      (CursorRange.point p).overlaps b = true) := by
  refine ⟨fun a b => ?_, fun a b => ?_, fun a b h1 h2 h3 => ?_, fun p b hp => ?_⟩
  · simp [CursorRange.overlaps]
  · simp only [CursorRange.overlaps]
    rw [Bool.eq_iff_iff]
    simp only [Bool.or_eq_true, Bool.and_eq_true, beq_iff_eq, decide_eq_true_eq,
      CursorRange.fromOfs, CursorRange.toOfs, gt_iff_lt]
    omega
  · rw [Bool.eq_false_iff]
    simp only [ne_eq, CursorRange.overlaps, Bool.or_eq_true, Bool.and_eq_true,
      beq_iff_eq, decide_eq_true_eq, gt_iff_lt, not_or, not_and]
    omega
  · simp only [CursorRange.overlaps, Bool.or_eq_true, beq_iff_eq]
    left
    simp only [CursorRange.point, CursorRange.fromOfs] at hp ⊢
    omega

/-- Witness for C7: concrete instances of the three conditional parts — the
adjacent ranges `[0,2)` and `[2,5)` do not overlap, while the zero-width range at
1 overlaps `[1,4)`, symmetrically. -/
theorem overlaps_witness :
    CursorRange.overlaps ⟨0,2⟩ ⟨2,5⟩ = false
  ∧ (CursorRange.point 1).overlaps ⟨1,4⟩ = true
  ∧ CursorRange.overlaps ⟨3,7⟩ ⟨4,1⟩ = CursorRange.overlaps ⟨4,1⟩ ⟨3,7⟩ :=
  ⟨overlaps_spec.2.2.1 ⟨0,2⟩ ⟨2,5⟩ (by decide) (by decide) (by decide),
   overlaps_spec.2.2.2 1 ⟨1,4⟩ (by decide),
   overlaps_spec.2.1 ⟨3,7⟩ ⟨4,1⟩⟩

/-- Counterexample to claim C9 as stated: the pair (Cr, Punctuation) has exactly one
punctuation side, so the claim demands `Both`, but `classify_boundary` falls through
every arm to the wildcard and returns `Interior`. -/
theorem classify_boundary_counterexample :
    classifyBoundary .Cr .Punctuation = .Interior ∧
      classifyBoundary .Cr .Punctuation ≠ .Both := by
  exact ⟨rfl, by decide⟩

/-- Claim C9 as amended: the classifier is total on the 5×5 class product and
computes, row by row in the previous class: after `Lf`, `Space` is interior and
everything else starts a word; after `Space`, line breaks and spaces are interior
and everything else starts a word; after `Cr`, `Lf` is interior, `Cr`/`Space` end a
word, and punctuation/other are interior; after `Punctuation`/`Other`, a following
space or line break ends a word, the punctuation/other mixed pairs are `Both`, and
the remaining pairs are interior. -/
theorem classify_boundary_table :
    ∀ p n : CharClassification, classifyBoundary p n = classifyBoundarySpec p n := by
  intro p n
  cases p <;> cases n <;> rfl

/-! ### The augmented AVL interval tree (`span/augmented_avl_tree.rs`) -/

/-- A node of the interval tree (`Node<N, D>` with `N = Nat` bounds and value type
`α`); `leaf` models an absent (`None`) child.  Fields mirror the Rust struct:
interval (start, end), value, cached subtree maximum `maxv`, cached `height`
(an `i64` in Rust, hence `Int`), children. -/
inductive ITree (α : Type) where
  | leaf
  | node (iv : Nat × Nat) (value : α) (maxv : Nat) (height : Int) (l r : ITree α)
deriving DecidableEq, Repr

namespace ITree

variable {α : Type}

/-- `child.as_ref().map_or(0, |n| n.height)`. -/
def hgt : ITree α → Int
  | .leaf => 0
  | .node _ _ _ h _ _ => h

/-- Cached subtree maximum; `0` for an absent child (never consulted in that case,
and neutral for `Nat.max`). -/
def mval : ITree α → Nat
  | .leaf => 0
  | .node _ _ m _ _ _ => m

/-- `Node::new`: a singleton node with `max = interval.end` and height 1. -/
def newNode (iv : Nat × Nat) (d : α) : ITree α := .node iv d iv.2 1 .leaf .leaf

/-- `update_height` followed by `update_max` on the root (children untouched). -/
def updHM : ITree α → ITree α
  | .leaf => .leaf
  | .node iv v _ _ l r =>
      .node iv v (Nat.max iv.2 (Nat.max (mval l) (mval r))) (1 + max (hgt l) (hgt r)) l r

/-- `Node::rotate_left`: the right child's payload moves to the root (via
`swap_interval_data`), the old root's payload moves down-left keeping the left
subtree and gaining the right child's left subtree; height/max are recomputed
bottom-up.  A missing right child would `unwrap`-panic in Rust; the tree is
returned unchanged there, and every use is guarded so that case is unreachable. -/
def rotateLeft : ITree α → ITree α
  | .node iv v m h l (.node riv rv _ _ rl rr) =>
      updHM (.node riv rv 0 0 (updHM (.node iv v m h l rl)) rr)
  | t => t

/-- `Node::rotate_right`, the mirror image of `rotate_left`. -/
def rotateRight : ITree α → ITree α
  | .node iv v m h (.node liv lv _ _ ll lr) r =>
      updHM (.node liv lv 0 0 ll (updHM (.node iv v m h lr r)))
  | t => t

/-- `Node::repair` (`augmented_avl_tree.rs` 336-370): within-1 imbalance just
refreshes height and max; otherwise rotate towards the shorter side, first
rotating the taller child when its inner grandchild is the taller one
(double rotation). -/
def repair : ITree α → ITree α
  | .leaf => .leaf
  | .node iv v m h l r =>
    if (hgt l - hgt r).natAbs ≤ 1 then updHM (.node iv v m h l r)
    else if hgt l < hgt r then
      rotateLeft (.node iv v m h l
        (match r with
         | .node riv rv rm rh rl rr =>
             if hgt rr < hgt rl then rotateRight (.node riv rv rm rh rl rr)
             else .node riv rv rm rh rl rr
         | .leaf => .leaf))
    else
      rotateRight (.node iv v m h
        (match l with
         | .node liv lv lm lh ll lr =>
             if hgt ll < hgt lr then rotateLeft (.node liv lv lm lh ll lr)
             else .node liv lv lm lh ll lr
         | .leaf => .leaf) r)

/-- `Node::insert` / `IntervalTree::insert`: descend left when the new start is
`≤` the node's start, right otherwise; an absent child (the empty tree) receives
a fresh node; `repair` runs at every node on the way back up. -/
def insert : ITree α → (Nat × Nat) → α → ITree α
  | .leaf, iv, d => newNode iv d
  | .node siv sv m h l r, iv, d =>
    if iv.1 ≤ siv.1 then repair (.node siv sv m h (insert l iv d) r)
    else repair (.node siv sv m h l (insert r iv d))

/-- A sequence of `insert` operations applied to the empty tree. -/
def build (ops : List ((Nat × Nat) × α)) : ITree α :=
  ops.foldl (fun t p => insert t p.1 p.2) .leaf

/-- `intersect` (`augmented_avl_tree.rs` 414-419): both intervals have positive
width and each one starts strictly before the other ends (first argument: the
query; second: the stored interval). -/
def intersectB (q iv : Nat × Nat) : Bool :=
  decide (q.1 < q.2) && decide (iv.1 < iv.2) && decide (q.2 > iv.1) && decide (q.1 < iv.2)

/-- The entries stored in a tree, listed in the order the `find` iterator visits
nodes (node first, then the right subtree, then the left subtree — the iterator
pushes left below right on its stack). -/
def entryList : ITree α → List ((Nat × Nat) × α)
  | .leaf => []
  | .node iv v _ _ l r => (iv, v) :: (entryList r ++ entryList l)

/-- The entries yielded by `IntervalTree::find` / `IntervalTreeIterator::next`
(`augmented_avl_tree.rs` 115-149): a subtree is pruned when
`query.start ≥ node.max`; the node and its right subtree are pruned when
`query.end ≤ node.start`; a visited node is yielded when `intersect` holds.
The stack mechanics are reproduced as structural recursion in yield order. -/
def findAll (q : Nat × Nat) : ITree α → List ((Nat × Nat) × α)
  | .leaf => []
  | .node iv v m _ l r =>
    if q.1 < m then
      (if iv.1 < q.2 then
        (if intersectB q iv then [(iv, v)] else []) ++ findAll q r
       else []) ++ findAll q l
    else []

/-- The greatest interval end bound occurring in a subtree (`0` for the empty
tree, which stores no interval). -/
def tmax : ITree α → Nat
  | .leaf => 0
  | .node iv _ _ _ l r => Nat.max iv.2 (Nat.max (tmax l) (tmax r))

/-- The invariant of claim C6: every node is height-balanced
(`|height(left) − height(right)| ≤ 1`), its cached height is 1 + the larger
child height, and its cached max is the greatest end bound in its subtree. -/
def Wf : ITree α → Prop
  | .leaf => True
  | .node iv _ m h l r =>
      Wf l ∧ Wf r ∧ (hgt l - hgt r).natAbs ≤ 1 ∧
        h = 1 + max (hgt l) (hgt r) ∧
        m = Nat.max iv.2 (Nat.max (tmax l) (tmax r))

/-- Every interval of a subtree satisfies `p`. -/
def AllIv (p : Nat × Nat → Prop) : ITree α → Prop
  | .leaf => True
  | .node iv _ _ _ l r => p iv ∧ AllIv p l ∧ AllIv p r

/-- Search-order invariant maintained by `insert` (left on `start ≤ node.start`,
right otherwise): left subtree starts are `≤` the node start and right subtree
starts are `≥` it. -/
def Ordered : ITree α → Prop
  | .leaf => True
  | .node iv _ _ _ l r =>
      Ordered l ∧ Ordered r ∧ AllIv (fun jv => jv.1 ≤ iv.1) l ∧ AllIv (fun jv => iv.1 ≤ jv.1) r

end ITree

namespace ITree

/-- A well-formed tree has a nonnegative cached height. -/
theorem hgt_nonneg {t : ITree α} (ht : Wf t) : 0 ≤ hgt t := by
  induction t with
  | leaf => simp [hgt]
  | node iv v m h l r ihl ihr =>
    obtain ⟨hl, hr, _, hh, _⟩ := ht
    have h1 := ihl hl
    have h2 := ihr hr
    simp only [hgt] at *
    omega

/-- In a well-formed tree the cached maximum agrees with the recomputed one. -/
theorem mval_eq_tmax {t : ITree α} (ht : Wf t) : mval t = tmax t := by
  cases t with
  | leaf => rfl
  | node iv v m h l r => exact ht.2.2.2.2

/-- A fresh singleton node is well-formed. -/
theorem wf_newNode (iv : Nat × Nat) (d : α) : Wf (newNode iv d) :=
  ⟨trivial, trivial, by simp [hgt], by simp [hgt], by simp [tmax]⟩

/-- `update_height`/`update_max` on a node with well-formed, near-balanced
children produces a well-formed node of the expected height. -/
theorem wf_updHM {iv : Nat × Nat} {v : α} {m : Nat} {h : Int} {l r : ITree α}
    (hl : Wf l) (hr : Wf r) (hb : (hgt l - hgt r).natAbs ≤ 1) :
    Wf (updHM (.node iv v m h l r)) ∧
      hgt (updHM (.node iv v m h l r)) = 1 + max (hgt l) (hgt r) :=
  ⟨⟨hl, hr, hb, rfl, by rw [mval_eq_tmax hl, mval_eq_tmax hr]⟩, rfl⟩


@[simp] theorem hgt_leaf : (leaf : ITree α).hgt = 0 := rfl

@[simp] theorem hgt_node (iv : Nat × Nat) (v : α) (m : Nat) (h : Int) (l r : ITree α) :
    (node iv v m h l r).hgt = h := rfl

@[simp] theorem mval_leaf : (leaf : ITree α).mval = 0 := rfl

@[simp] theorem mval_node (iv : Nat × Nat) (v : α) (m : Nat) (h : Int) (l r : ITree α) :
    (node iv v m h l r).mval = m := rfl

theorem tmax_leaf : (leaf : ITree α).tmax = 0 := rfl

theorem tmax_node (iv : Nat × Nat) (v : α) (m : Nat) (h : Int) (l r : ITree α) :
    (node iv v m h l r).tmax = Nat.max iv.2 (Nat.max (tmax l) (tmax r)) := rfl

/-- `repair` on a node with well-formed children whose heights differ by at most 2
(the situation after one insertion below) yields a well-formed tree; its height
lies between the larger child height and one more than it, and equals the latter
when no rotation was needed. -/
theorem wf_repair {iv : Nat × Nat} {v : α} {m : Nat} {h : Int} {l r : ITree α}
    (hl : Wf l) (hr : Wf r) (hb : (hgt l - hgt r).natAbs ≤ 2) :
    Wf (repair (.node iv v m h l r)) ∧
      max (hgt l) (hgt r) ≤ hgt (repair (.node iv v m h l r)) ∧
      hgt (repair (.node iv v m h l r)) ≤ 1 + max (hgt l) (hgt r) ∧
      ((hgt l - hgt r).natAbs ≤ 1 →
        hgt (repair (.node iv v m h l r)) = 1 + max (hgt l) (hgt r)) := by
  have hnl := hgt_nonneg hl
  have hnr := hgt_nonneg hr
  by_cases h1 : (hgt l - hgt r).natAbs ≤ 1
  · obtain ⟨w, hh⟩ := @wf_updHM α iv v m h l r hl hr h1
    have hrw : repair (.node iv v m h l r) = updHM (.node iv v m h l r) := by
      simp only [repair, if_pos h1]
    rw [hrw]
    exact ⟨w, by (try simp only [hgt_node, hgt_leaf]) <;> omega, by (try simp only [hgt_node, hgt_leaf]) <;> omega, fun _ => hh⟩
  · by_cases h2 : hgt l < hgt r
    · -- right-heavy: hgt r = hgt l + 2
      have hd : hgt r = hgt l + 2 := by (try simp only [hgt_node, hgt_leaf]) <;> omega
      cases r with
      | leaf => rw [hgt_leaf] at hd; omega
      | node riv rv rm rh rl rr =>
        obtain ⟨wrl, wrr, hbr, hhr, hmr⟩ := hr
        have hnrl := hgt_nonneg wrl
        have hnrr := hgt_nonneg wrr
        rw [hgt_node] at hd h2 h1 hb hnr
        by_cases h3 : hgt rr < hgt rl
        · -- double rotation: rotate_right on the right child, then rotate_left
          cases rl with
          | leaf => rw [hgt_leaf] at h3; omega
          | node aiv av am ah a b =>
            obtain ⟨wa, wb, hbrl, hhrl, hmrl⟩ := wrl
            have hna := hgt_nonneg wa
            have hnb := hgt_nonneg wb
            rw [hgt_node] at h3 hbr hhr hnrl
            have hrw : repair (.node iv v m h l
                (.node riv rv rm rh (.node aiv av am ah a b) rr)) =
                updHM (.node aiv av 0 0 (updHM (.node iv v m h l a))
                  (updHM (.node riv rv rm rh b rr))) := by
              simp only [repair, hgt_node]
              rw [if_neg h1, if_pos h2, if_pos h3]
              simp only [rotateRight, updHM, rotateLeft]
            rw [hrw]
            simp only [updHM, hgt_node, hgt_leaf, mval_node, mval_leaf]
            refine ⟨⟨⟨hl, wa, by (try simp only [hgt_node, hgt_leaf]) <;> omega, by (try simp only [hgt_node, hgt_leaf]) <;> omega, ?_⟩, ⟨wb, wrr, by (try simp only [hgt_node, hgt_leaf]) <;> omega, by (try simp only [hgt_node, hgt_leaf]) <;> omega, ?_⟩,
              by (try simp only [hgt_node, hgt_leaf]) <;> omega, by (try simp only [hgt_node, hgt_leaf]) <;> omega, ?_⟩, by (try simp only [hgt_node, hgt_leaf]) <;> omega, by (try simp only [hgt_node, hgt_leaf]) <;> omega, by (try simp only [hgt_node, hgt_leaf]) <;> omega⟩
            · rw [mval_eq_tmax hl, mval_eq_tmax wa]
            · rw [mval_eq_tmax wb, mval_eq_tmax wrr]
            · simp only [tmax_node]
              rw [mval_eq_tmax hl, mval_eq_tmax wa, mval_eq_tmax wb, mval_eq_tmax wrr]
        · -- single left rotation
          have hrw : repair (.node iv v m h l (.node riv rv rm rh rl rr)) =
              updHM (.node riv rv 0 0 (updHM (.node iv v m h l rl)) rr) := by
            simp only [repair, hgt_node]
            rw [if_neg h1, if_pos h2, if_neg h3]
            simp only [rotateLeft, updHM]
          rw [hrw]
          simp only [updHM, hgt_node, hgt_leaf, mval_node, mval_leaf]
          refine ⟨⟨⟨hl, wrl, by (try simp only [hgt_node, hgt_leaf]) <;> omega, by (try simp only [hgt_node, hgt_leaf]) <;> omega, ?_⟩, wrr, by (try simp only [hgt_node, hgt_leaf]) <;> omega, by (try simp only [hgt_node, hgt_leaf]) <;> omega, ?_⟩,
            by (try simp only [hgt_node, hgt_leaf]) <;> omega, by (try simp only [hgt_node, hgt_leaf]) <;> omega, by (try simp only [hgt_node, hgt_leaf]) <;> omega⟩
          · rw [mval_eq_tmax hl, mval_eq_tmax wrl]
          · simp only [tmax_node]
            rw [mval_eq_tmax hl, mval_eq_tmax wrl, mval_eq_tmax wrr]
    · -- left-heavy: hgt l = hgt r + 2
      have hd : hgt l = hgt r + 2 := by (try simp only [hgt_node, hgt_leaf]) <;> omega
      cases l with
      | leaf => rw [hgt_leaf] at hd; omega
      | node liv lv lm lh ll lr =>
        obtain ⟨wll, wlr, hbl, hhl, hml⟩ := hl
        have hnll := hgt_nonneg wll
        have hnlr := hgt_nonneg wlr
        rw [hgt_node] at hd h2 h1 hb hnl
        by_cases h3 : hgt ll < hgt lr
        · -- double rotation: rotate_left on the left child, then rotate_right
          cases lr with
          | leaf => rw [hgt_leaf] at h3; omega
          | node biv bv bm bh a b =>
            obtain ⟨wa, wb, hblr, hhlr, hmlr⟩ := wlr
            have hna := hgt_nonneg wa
            have hnb := hgt_nonneg wb
            rw [hgt_node] at h3 hbl hhl hnlr
            have hrw : repair (.node iv v m h
                (.node liv lv lm lh ll (.node biv bv bm bh a b)) r) =
                updHM (.node biv bv 0 0 (updHM (.node liv lv lm lh ll a))
                  (updHM (.node iv v m h b r))) := by
              simp only [repair, hgt_node]
              rw [if_neg h1, if_neg h2, if_pos h3]
              simp only [rotateLeft, updHM, rotateRight]
            rw [hrw]
            simp only [updHM, hgt_node, hgt_leaf, mval_node, mval_leaf]
            refine ⟨⟨⟨wll, wa, by (try simp only [hgt_node, hgt_leaf]) <;> omega, by (try simp only [hgt_node, hgt_leaf]) <;> omega, ?_⟩, ⟨wb, hr, by (try simp only [hgt_node, hgt_leaf]) <;> omega, by (try simp only [hgt_node, hgt_leaf]) <;> omega, ?_⟩,
              by (try simp only [hgt_node, hgt_leaf]) <;> omega, by (try simp only [hgt_node, hgt_leaf]) <;> omega, ?_⟩, by (try simp only [hgt_node, hgt_leaf]) <;> omega, by (try simp only [hgt_node, hgt_leaf]) <;> omega, by (try simp only [hgt_node, hgt_leaf]) <;> omega⟩
            · rw [mval_eq_tmax wll, mval_eq_tmax wa]
            · rw [mval_eq_tmax wb, mval_eq_tmax hr]
            · simp only [tmax_node]
              rw [mval_eq_tmax wll, mval_eq_tmax wa, mval_eq_tmax wb, mval_eq_tmax hr]
        · -- single right rotation
          have hrw : repair (.node iv v m h (.node liv lv lm lh ll lr) r) =
              updHM (.node liv lv 0 0 ll (updHM (.node iv v m h lr r))) := by
            simp only [repair, hgt_node]
            rw [if_neg h1, if_neg h2, if_neg h3]
            simp only [rotateRight, updHM]
          rw [hrw]
          simp only [updHM, hgt_node, hgt_leaf, mval_node, mval_leaf]
          refine ⟨⟨wll, ⟨wlr, hr, by (try simp only [hgt_node, hgt_leaf]) <;> omega, by (try simp only [hgt_node, hgt_leaf]) <;> omega, ?_⟩, by (try simp only [hgt_node, hgt_leaf]) <;> omega, by (try simp only [hgt_node, hgt_leaf]) <;> omega, ?_⟩,
            by (try simp only [hgt_node, hgt_leaf]) <;> omega, by (try simp only [hgt_node, hgt_leaf]) <;> omega, by (try simp only [hgt_node, hgt_leaf]) <;> omega⟩
          · rw [mval_eq_tmax wlr, mval_eq_tmax hr]
          · simp only [tmax_node]
            rw [mval_eq_tmax wll, mval_eq_tmax wlr, mval_eq_tmax hr]

/-- Insertion preserves the AVL/augmentation invariant and grows the cached
height by at most one. -/
theorem wf_insert {t : ITree α} (ht : Wf t) (iv : Nat × Nat) (d : α) :
    Wf (insert t iv d) ∧ hgt t ≤ hgt (insert t iv d) ∧ hgt (insert t iv d) ≤ hgt t + 1 := by
  induction t with
  | leaf =>
    refine ⟨wf_newNode iv d, ?_, ?_⟩ <;> simp [insert, newNode]
  | node siv sv m h l r ihl ihr =>
    obtain ⟨hl, hr, hbal, hh, hm⟩ := ht
    have hnl := hgt_nonneg hl
    have hnr := hgt_nonneg hr
    by_cases hcmp : iv.1 ≤ siv.1
    · obtain ⟨wfl, hge, hle⟩ := ihl hl
      obtain ⟨w, b1, b2, b3⟩ :=
        @wf_repair α siv sv m h (insert l iv d) r wfl hr (by omega)
      have hrw : insert (.node siv sv m h l r) iv d =
          repair (.node siv sv m h (insert l iv d) r) := by
        simp only [insert, if_pos hcmp]
      rw [hrw]
      refine ⟨w, ?_, ?_⟩ <;>
        (rw [hgt_node]
         by_cases hc : (hgt (insert l iv d) - hgt r).natAbs ≤ 1
         · have := b3 hc; omega
         · omega)
    · obtain ⟨wfr, hge, hle⟩ := ihr hr
      obtain ⟨w, b1, b2, b3⟩ :=
        @wf_repair α siv sv m h l (insert r iv d) hl wfr (by omega)
      have hrw : insert (.node siv sv m h l r) iv d =
          repair (.node siv sv m h l (insert r iv d)) := by
        simp only [insert, if_neg hcmp]
      rw [hrw]
      refine ⟨w, ?_, ?_⟩ <;>
        (rw [hgt_node]
         by_cases hc : (hgt l - hgt (insert r iv d)).natAbs ≤ 1
         · have := b3 hc; omega
         · omega)

/-- Every tree built by a sequence of inserts from the empty tree is
well-formed (internal form, folded over an arbitrary well-formed start). -/
theorem wf_foldl_insert (ops : List ((Nat × Nat) × α)) :
    ∀ t : ITree α, Wf t → Wf (ops.foldl (fun t p => insert t p.1 p.2) t) := by
  induction ops with
  | nil => intro t ht; exact ht
  | cons p ops ih =>
    intro t ht
    exact ih _ (wf_insert ht p.1 p.2).1

/-- The built tree is well-formed. -/
theorem wf_build (ops : List ((Nat × Nat) × α)) : Wf (build ops) :=
  wf_foldl_insert ops .leaf trivial

theorem allIv_mono {p q : Nat × Nat → Prop} (hpq : ∀ x, p x → q x) :
    ∀ {t : ITree α}, AllIv p t → AllIv q t := by
  intro t
  induction t with
  | leaf => intro _; trivial
  | node iv v m h l r ihl ihr =>
    rintro ⟨h1, h2, h3⟩
    exact ⟨hpq _ h1, ihl h2, ihr h3⟩

theorem allIv_updHM {p : Nat × Nat → Prop} : ∀ {t : ITree α}, AllIv p t → AllIv p (updHM t)
  | .leaf, h => h
  | .node _ _ _ _ _ _, h => h

theorem allIv_rotateLeft {p : Nat × Nat → Prop} :
    ∀ {t : ITree α}, AllIv p t → AllIv p (rotateLeft t)
  | .leaf, h => h
  | .node _ _ _ _ _ .leaf, h => h
  | .node _ _ _ _ _ (.node _ _ _ _ _ _), h =>
      ⟨h.2.2.1, ⟨h.1, h.2.1, h.2.2.2.1⟩, h.2.2.2.2⟩

theorem allIv_rotateRight {p : Nat × Nat → Prop} :
    ∀ {t : ITree α}, AllIv p t → AllIv p (rotateRight t)
  | .leaf, h => h
  | .node _ _ _ _ .leaf _, h => h
  | .node _ _ _ _ (.node _ _ _ _ _ _) _, h =>
      ⟨h.2.1.1, h.2.1.2.1, ⟨h.1, h.2.1.2.2, h.2.2⟩⟩

theorem allIv_repair {p : Nat × Nat → Prop} {iv : Nat × Nat} {v : α} {m : Nat} {h : Int}
    {l r : ITree α} (hall : AllIv p (.node iv v m h l r)) :
    AllIv p (repair (.node iv v m h l r)) := by
  by_cases h1 : (hgt l - hgt r).natAbs ≤ 1
  · rw [show repair (.node iv v m h l r) = updHM (.node iv v m h l r) from by
      simp only [repair, if_pos h1]]
    exact allIv_updHM hall
  · by_cases h2 : hgt l < hgt r
    · cases r with
      | leaf =>
        rw [show repair (.node iv v m h l .leaf) = rotateLeft (.node iv v m h l .leaf) from by
          simp only [repair]
          rw [if_neg h1, if_pos h2]]
        exact allIv_rotateLeft hall
      | node riv rv rm rh rl rr =>
        by_cases h3 : hgt rr < hgt rl
        · rw [show repair (.node iv v m h l (.node riv rv rm rh rl rr)) =
              rotateLeft (.node iv v m h l (rotateRight (.node riv rv rm rh rl rr))) from by
            simp only [repair]
            rw [if_neg h1, if_pos h2, if_pos h3]]
          exact allIv_rotateLeft ⟨hall.1, hall.2.1, allIv_rotateRight hall.2.2⟩
        · rw [show repair (.node iv v m h l (.node riv rv rm rh rl rr)) =
              rotateLeft (.node iv v m h l (.node riv rv rm rh rl rr)) from by
            simp only [repair]
            rw [if_neg h1, if_pos h2, if_neg h3]]
          exact allIv_rotateLeft hall
    · cases l with
      | leaf =>
        rw [show repair (.node iv v m h .leaf r) = rotateRight (.node iv v m h .leaf r) from by
          simp only [repair]
          rw [if_neg h1, if_neg h2]]
        exact allIv_rotateRight hall
      | node liv lv lm lh ll lr =>
        by_cases h3 : hgt ll < hgt lr
        · rw [show repair (.node iv v m h (.node liv lv lm lh ll lr) r) =
              rotateRight (.node iv v m h (rotateLeft (.node liv lv lm lh ll lr)) r) from by
            simp only [repair]
            rw [if_neg h1, if_neg h2, if_pos h3]]
          exact allIv_rotateRight ⟨hall.1, allIv_rotateLeft hall.2.1, hall.2.2⟩
        · rw [show repair (.node iv v m h (.node liv lv lm lh ll lr) r) =
              rotateRight (.node iv v m h (.node liv lv lm lh ll lr) r) from by
            simp only [repair]
            rw [if_neg h1, if_neg h2, if_neg h3]]
          exact allIv_rotateRight hall

theorem ordered_updHM : ∀ {t : ITree α}, Ordered t → Ordered (updHM t)
  | .leaf, h => h
  | .node _ _ _ _ _ _, h => h

theorem ordered_rotateLeft : ∀ {t : ITree α}, Ordered t → Ordered (rotateLeft t)
  | .leaf, h => h
  | .node _ _ _ _ _ .leaf, h => h
  | .node iv _ _ _ l (.node riv _ _ _ rl rr), h =>
      ⟨⟨h.1, h.2.1.1, h.2.2.1, h.2.2.2.2.1⟩, h.2.1.2.1,
       ⟨h.2.2.2.1, allIv_mono (fun x hx => Nat.le_trans hx h.2.2.2.1) h.2.2.1, h.2.1.2.2.1⟩,
       h.2.1.2.2.2⟩

theorem ordered_rotateRight : ∀ {t : ITree α}, Ordered t → Ordered (rotateRight t)
  | .leaf, h => h
  | .node _ _ _ _ .leaf _, h => h
  | .node iv _ _ _ (.node liv _ _ _ ll lr) r, h =>
      ⟨h.1.1, ⟨h.1.2.1, h.2.1, h.2.2.1.2.2, h.2.2.2⟩,
       h.1.2.2.1,
       ⟨h.2.2.1.1, h.1.2.2.2, allIv_mono (fun x hx => Nat.le_trans h.2.2.1.1 hx) h.2.2.2⟩⟩

theorem ordered_repair {iv : Nat × Nat} {v : α} {m : Nat} {h : Int}
    {l r : ITree α} (hord : Ordered (.node iv v m h l r)) :
    Ordered (repair (.node iv v m h l r)) := by
  by_cases h1 : (hgt l - hgt r).natAbs ≤ 1
  · rw [show repair (.node iv v m h l r) = updHM (.node iv v m h l r) from by
      simp only [repair, if_pos h1]]
    exact ordered_updHM hord
  · by_cases h2 : hgt l < hgt r
    · cases r with
      | leaf =>
        rw [show repair (.node iv v m h l .leaf) = rotateLeft (.node iv v m h l .leaf) from by
          simp only [repair]
          rw [if_neg h1, if_pos h2]]
        exact ordered_rotateLeft hord
      | node riv rv rm rh rl rr =>
        by_cases h3 : hgt rr < hgt rl
        · rw [show repair (.node iv v m h l (.node riv rv rm rh rl rr)) =
              rotateLeft (.node iv v m h l (rotateRight (.node riv rv rm rh rl rr))) from by
            simp only [repair]
            rw [if_neg h1, if_pos h2, if_pos h3]]
          exact ordered_rotateLeft
            ⟨hord.1, ordered_rotateRight hord.2.1, hord.2.2.1, allIv_rotateRight hord.2.2.2⟩
        · rw [show repair (.node iv v m h l (.node riv rv rm rh rl rr)) =
              rotateLeft (.node iv v m h l (.node riv rv rm rh rl rr)) from by
            simp only [repair]
            rw [if_neg h1, if_pos h2, if_neg h3]]
          exact ordered_rotateLeft hord
    · cases l with
      | leaf =>
        rw [show repair (.node iv v m h .leaf r) = rotateRight (.node iv v m h .leaf r) from by
          simp only [repair]
          rw [if_neg h1, if_neg h2]]
        exact ordered_rotateRight hord
      | node liv lv lm lh ll lr =>
        by_cases h3 : hgt ll < hgt lr
        · rw [show repair (.node iv v m h (.node liv lv lm lh ll lr) r) =
              rotateRight (.node iv v m h (rotateLeft (.node liv lv lm lh ll lr)) r) from by
            simp only [repair]
            rw [if_neg h1, if_neg h2, if_pos h3]]
          exact ordered_rotateRight
            ⟨ordered_rotateLeft hord.1, hord.2.1, allIv_rotateLeft hord.2.2.1, hord.2.2.2⟩
        · rw [show repair (.node iv v m h (.node liv lv lm lh ll lr) r) =
              rotateRight (.node iv v m h (.node liv lv lm lh ll lr) r) from by
            simp only [repair]
            rw [if_neg h1, if_neg h2, if_neg h3]]
          exact ordered_rotateRight hord

theorem allIv_insert {p : Nat × Nat → Prop} {t : ITree α} (h : AllIv p t)
    {iv : Nat × Nat} (hiv : p iv) (d : α) : AllIv p (insert t iv d) := by
  induction t with
  | leaf => exact ⟨hiv, trivial, trivial⟩
  | node siv sv m hh l r ihl ihr =>
    by_cases hc : iv.1 ≤ siv.1
    · rw [show insert (.node siv sv m hh l r) iv d =
          repair (.node siv sv m hh (insert l iv d) r) from by simp only [insert, if_pos hc]]
      exact allIv_repair ⟨h.1, ihl h.2.1, h.2.2⟩
    · rw [show insert (.node siv sv m hh l r) iv d =
          repair (.node siv sv m hh l (insert r iv d)) from by simp only [insert, if_neg hc]]
      exact allIv_repair ⟨h.1, h.2.1, ihr h.2.2⟩

theorem ordered_insert {t : ITree α} (h : Ordered t) (iv : Nat × Nat) (d : α) :
    Ordered (insert t iv d) := by
  induction t with
  | leaf => exact ⟨trivial, trivial, trivial, trivial⟩
  | node siv sv m hh l r ihl ihr =>
    by_cases hc : iv.1 ≤ siv.1
    · rw [show insert (.node siv sv m hh l r) iv d =
          repair (.node siv sv m hh (insert l iv d) r) from by simp only [insert, if_pos hc]]
      exact ordered_repair ⟨ihl h.1, h.2.1, allIv_insert h.2.2.1 hc d, h.2.2.2⟩
    · rw [show insert (.node siv sv m hh l r) iv d =
          repair (.node siv sv m hh l (insert r iv d)) from by simp only [insert, if_neg hc]]
      exact ordered_repair ⟨h.1, ihr h.2.1, h.2.2.1, allIv_insert h.2.2.2 (by omega) d⟩

theorem ordered_foldl_insert (ops : List ((Nat × Nat) × α)) :
    ∀ t : ITree α, Ordered t → Ordered (ops.foldl (fun t p => insert t p.1 p.2) t) := by
  induction ops with
  | nil => intro t ht; exact ht
  | cons p ops ih => intro t ht; exact ih _ (ordered_insert ht p.1 p.2)

theorem ordered_build (ops : List ((Nat × Nat) × α)) : Ordered (build ops) :=
  ordered_foldl_insert ops .leaf trivial

/-- Every stored entry's end bound is at most the recomputed subtree maximum. -/
theorem end_le_tmax {e : (Nat × Nat) × α} :
    ∀ {t : ITree α}, e ∈ entryList t → e.1.2 ≤ tmax t := by
  intro t
  induction t with
  | leaf => intro he; simp [entryList] at he
  | node iv v m h l r ihl ihr =>
    intro he
    simp only [entryList, List.mem_cons, List.mem_append] at he
    rw [tmax_node]
    rcases he with rfl | hr | hl'
    · exact Nat.le_max_left _ _
    · exact Nat.le_trans (ihr hr) (Nat.le_trans (Nat.le_max_right _ _) (Nat.le_max_right _ _))
    · exact Nat.le_trans (ihl hl') (Nat.le_trans (Nat.le_max_left _ _) (Nat.le_max_right _ _))

/-- A bound holding on all intervals of a subtree holds on every stored entry. -/
theorem allIv_of_mem {p : Nat × Nat → Prop} {e : (Nat × Nat) × α} :
    ∀ {t : ITree α}, AllIv p t → e ∈ entryList t → p e.1 := by
  intro t
  induction t with
  | leaf => intro _ he; simp [entryList] at he
  | node iv v m h l r ihl ihr =>
    intro hall he
    simp only [entryList, List.mem_cons, List.mem_append] at he
    rcases he with rfl | hr | hl'
    · exact hall.1
    · exact ihr hall.2.2 hr
    · exact ihl hall.2.1 hl'

/-- On a well-formed, search-ordered tree the pruned `find` traversal yields
exactly the stored entries whose interval `intersect`s the query. -/
theorem findAll_eq_filter {q : Nat × Nat} :
    ∀ {t : ITree α}, Wf t → Ordered t →
      findAll q t = (entryList t).filter (fun e => intersectB q e.1) := by
  intro t
  induction t with
  | leaf => intro _ _; rfl
  | node iv v m h l r ihl ihr =>
    intro hw ho
    obtain ⟨wl, wr, _, _, hm⟩ := hw
    obtain ⟨ol, or', hal, har⟩ := ho
    have hiv2 : iv.2 ≤ m := by rw [hm]; exact Nat.le_max_left _ _
    have hrmax : tmax r ≤ m := by
      rw [hm]
      exact Nat.le_trans (Nat.le_max_right _ _) (Nat.le_max_right _ _)
    have hlmax : tmax l ≤ m := by
      rw [hm]
      exact Nat.le_trans (Nat.le_max_left _ _) (Nat.le_max_right _ _)
    show findAll q (.node iv v m h l r) =
      ((iv, v) :: (entryList r ++ entryList l)).filter (fun e => intersectB q e.1)
    by_cases h1 : q.1 < m
    · by_cases h2 : iv.1 < q.2
      · have hfa : findAll q (.node iv v m h l r) =
            ((if intersectB q iv then [(iv, v)] else []) ++ findAll q r) ++ findAll q l := by
          simp only [findAll]
          rw [if_pos h1, if_pos h2]
        rw [hfa, ihl wl ol, ihr wr or']
        by_cases hq : intersectB q iv
        · simp [List.filter_cons, List.filter_append, hq]
        · simp [List.filter_cons, List.filter_append, hq]
      · have hfa : findAll q (.node iv v m h l r) = findAll q l := by
          simp only [findAll]
          rw [if_pos h1, if_neg h2]
          simp
        have hhead : intersectB q (iv, v).1 = false := by
          simp only [intersectB, Bool.and_eq_false_iff, decide_eq_false_iff_not]
          simp only [gt_iff_lt]
          omega
        have hright : (entryList r).filter (fun e => intersectB q e.1) = [] := by
          rw [List.filter_eq_nil_iff]
          intro e he
          have hst : iv.1 ≤ e.1.1 := allIv_of_mem har he
          simp only [intersectB, Bool.and_eq_true, decide_eq_true_eq, gt_iff_lt, not_and]
          omega
        rw [hfa, ihl wl ol]
        simp [List.filter_cons, List.filter_append, hhead, hright]
    · have hfa : findAll q (.node iv v m h l r) = [] := by
        simp only [findAll]
        rw [if_neg h1]
      have hhead : intersectB q (iv, v).1 = false := by
        simp only [intersectB, Bool.and_eq_false_iff, decide_eq_false_iff_not]
        simp only [gt_iff_lt]
        omega
      have hright : (entryList r).filter (fun e => intersectB q e.1) = [] := by
        rw [List.filter_eq_nil_iff]
        intro e he
        have := end_le_tmax he
        simp only [intersectB, Bool.and_eq_true, decide_eq_true_eq, gt_iff_lt, not_and]
        omega
      have hleft : (entryList l).filter (fun e => intersectB q e.1) = [] := by
        rw [List.filter_eq_nil_iff]
        intro e he
        have := end_le_tmax he
        simp only [intersectB, Bool.and_eq_true, decide_eq_true_eq, gt_iff_lt, not_and]
        omega
      rw [hfa]
      simp [List.filter_cons, List.filter_append, hhead, hright, hleft]

end ITree

/-- Claim C6: after every sequence of inserts into the interval tree (each insert
ending in `repair`, i.e. including any single or double rotations), every node
satisfies the height-balance invariant `|height(left) − height(right)| ≤ 1`, its
cached height equals 1 + the maximum child height, and its cached max equals the
greatest interval end bound in its subtree — the invariant `ITree.Wf`. -/
theorem interval_tree_insert_invariants {α : Type} (ops : List ((Nat × Nat) × α)) :
    ITree.Wf (ITree.build ops) :=
  ITree.wf_build ops

/-- Claim C10: the `find` iterator yields exactly those stored entries whose
interval `intersect`s the query — positive width on both sides
(`stored.start < stored.end`, `q.start < q.end`) and strict two-sided overlap
(`stored.start < q.end`, `q.start < stored.end`).  In particular a zero-width
stored interval is never yielded and a zero-width query yields nothing, since
`intersectB` then fails on every entry. -/
theorem interval_tree_find_spec {α : Type} (ops : List ((Nat × Nat) × α)) (q : Nat × Nat) :
    ITree.findAll q (ITree.build ops) =
      (ITree.entryList (ITree.build ops)).filter (fun e => ITree.intersectB q e.1) :=
  ITree.findAll_eq_filter (ITree.wf_build ops) (ITree.ordered_build ops)
